import Mathlib

/-!
Verification of the weighted consistent-hashing ring implemented in
`src/hashring/hashring.go` of krisalay/distributed-systems-journal.

The Go code is embedded shallowly:
  - `Node` (a Go string type) becomes `String`; the empty string is the Go
    zero value that `GetNode` returns on an empty ring.
  - the Go maps `nodes : map[Node]int` and `nodeMap : map[uint32]Node` become
    association lists with Go-map semantics (assignment replaces the entry
    for an existing key, deletion filters it out, `len` is the list length);
    the implementation only ever stores one entry per key.
  - `uint32` digests become `Nat` reduced modulo `2 ^ 32` at each call of the
    pluggable hasher (`Sum32` returns a 32-bit value).
  - the two nested loops of `AddNodeWeighted` (the outer placement loop and
    the inner collision-retry loop, which increments the shared index `i`)
    and the clockwise walk of `GetNodes` are not structurally terminating for
    arbitrary hash functions, exactly as in the Go source, so they are given
    explicit fuel and return `Option`: `none` models a computation that is
    still running after the given number of loop iterations.  `getNodes`
    gives its walk exactly `ring.length` iterations of fuel, which is the
    iteration bound the specification asserts for that loop.
-/

/-- Physical node identifier (Go: `type Node string`). -/
abbrev Node := String

/-- Lookup in an association list modelling a Go map read `m[a]`.
The first matching entry wins; the model stores at most one entry per key. -/
def alookup {α β : Type} [DecidableEq α] : List (α × β) → α → Option β
  | [], _ => none
  | (k, v) :: rest, a => if k = a then some v else alookup rest a

/-- Go map assignment `m[a] = b`: replace the entry for `a` if present,
otherwise append a fresh entry. -/
def ainsert {α β : Type} [DecidableEq α] : List (α × β) → α → β → List (α × β)
  | [], a, b => [(a, b)]
  | (k, v) :: rest, a, b =>
      if k = a then (a, b) :: rest else (k, v) :: ainsert rest a b

/-- Go map deletion `delete(m, a)`. -/
def aerase {α β : Type} [DecidableEq α] : List (α × β) → α → List (α × β)
  | [], _ => []
  | (k, v) :: rest, a => if k = a then aerase rest a else (k, v) :: aerase rest a

/-- The keys of an association list. -/
def keysOf {α β : Type} (l : List (α × β)) : List α := l.map Prod.fst

/-- The values of an association list. -/
def valuesOf {α β : Type} (l : List (α × β)) : List β := l.map Prod.snd

/-- Go map read with the zero value: `h.nodeMap[p]` yields `""` for a missing
key. -/
def lookupD (nm : List (Nat × Node)) (p : Nat) : Node :=
  (alookup nm p).getD ""

/-- The `HashRing` struct of the Go source (the `sync.RWMutex` field guards
the data and has no sequential content; see the concurrency claim). -/
structure HashRing where
  hasher : String → Nat
  virts : Int
  nodes : List (Node × Int)
  ring : List Nat
  nodeMap : List (Nat × Node)

namespace HashRing

/-- Go `New` with the two options applied; `hasher` stands for the configured
`Hasher.Sum32` and `virts` for the virtual-nodes-per-weight-unit option. -/
def new (hasher : String → Nat) (virts : Int) : HashRing :=
  { hasher := hasher, virts := virts, nodes := [], ring := [], nodeMap := [] }

/-- Go method `hash`: the configured `Sum32`, whose result is a `uint32`. -/
def hashOf (r : HashRing) (key : String) : Nat :=
  r.hasher key % 4294967296

/-- The two nested placement loops of `AddNodeWeighted`.  `inOuter = true`
models control sitting at the outer `for i := 0; i < total; i++` condition;
`inOuter = false` models the unconditional inner `for` that probes candidate
`i`, increments `i` on a digest collision, and breaks back to the outer loop
once it has inserted a fresh digest.  Fuel counts loop-state transitions;
`none` means the loops are still running after `fuel` transitions. -/
def placeLoop (hasher : String → Nat) (n : Node) (total : Int) :
    Nat → Bool → Nat → List Nat → List (Nat × Node) →
    Option (List Nat × List (Nat × Node))
  | 0, _, _, _, _ => none
  | fuel + 1, true, i, ringL, nm =>
      if (i : Int) < total then placeLoop hasher n total fuel false i ringL nm
      else some (ringL, nm)
  | fuel + 1, false, i, ringL, nm =>
      let point := hasher (n ++ "-" ++ toString i) % 4294967296
      if (alookup nm point).isSome then
        placeLoop hasher n total fuel false (i + 1) ringL nm
      else
        placeLoop hasher n total fuel true (i + 1) (ringL ++ [point])
          (ainsert nm point n)

/-- Go `AddNodeWeighted`: record the weight, place `virts * weight` candidate
points via `placeLoop`, then re-sort the ring (`sort.Slice` with `<`, here
`insertionSort` by `≤`, which agrees on the duplicate-free rings the code
builds). -/
def addNodeWeighted (fuel : Nat) (r : HashRing) (n : Node) (weight : Int) :
    Option HashRing :=
  let nodes' := ainsert r.nodes n weight
  let total := r.virts * weight
  match placeLoop r.hasher n total fuel true 0 r.ring r.nodeMap with
  | none => none
  | some (ringL, nm) =>
      some { r with
              nodes := nodes'
              ring := List.insertionSort (fun a b => a ≤ b) ringL
              nodeMap := nm }

/-- Go `AddNode`: default weight 1. -/
def addNode (fuel : Nat) (r : HashRing) (n : Node) : Option HashRing :=
  addNodeWeighted fuel r n 1

/-- Go `RemoveNode`: delete the weight entry, then one pass over the ring
keeping every point whose owner is not `n`, rebuilding both the ordered
sequence and the digest-to-node map. -/
def removeNode (r : HashRing) (n : Node) : HashRing :=
  let nodes' := aerase r.nodes n
  let newRing := r.ring.filter (fun p => decide (¬ lookupD r.nodeMap p = n))
  let newMap := newRing.map (fun p => (p, lookupD r.nodeMap p))
  { r with nodes := nodes', ring := newRing, nodeMap := newMap }

/-- Go `GetNode`: binary search (`sort.Search`) for the leftmost ring index
whose digest is at least `hash(key)`; on a sorted slice that is the first
index satisfying the predicate, i.e. `List.findIdx`.  Index `len(ring)`
wraps to 0. -/
def getNode (r : HashRing) (key : String) : Node :=
  if r.ring.length = 0 then "" else
  let point := r.hashOf key
  let i := r.ring.findIdx (fun d => decide (point ≤ d))
  let i := if i = r.ring.length then 0 else i
  lookupD r.nodeMap (r.ring.getD i 0)

/-- The clockwise collection loop of `GetNodes`
(`for len(nodes) < max { ... }`).  The Go code keeps a `seen` set whose
members are exactly the elements of the accumulated `nodes` slice, so the
membership test is taken on the accumulator directly.  Each fuel unit is one
loop iteration; `none` means the loop is still running after `fuel`
iterations. -/
def walk (nm : List (Nat × Node)) (ringL : List Nat) (maxR : Int) :
    Nat → Nat → List Node → Option (List Node)
  | 0, _, acc => if maxR ≤ (acc.length : Int) then some acc else none
  | fuel + 1, i, acc =>
      if maxR ≤ (acc.length : Int) then some acc
      else
        let n := lookupD nm (ringL.getD i 0)
        let acc' := if n ∈ acc then acc else acc ++ [n]
        walk nm ringL maxR fuel ((i + 1) % ringL.length) acc'

/-- Go `GetNodes`: empty result on an empty ring or a non-positive replica
count, otherwise cap at `min(replicas, len(h.nodes))` and walk clockwise
from the search position.  The walk is given `ring.length` iterations of
fuel, the bound the specification asserts for its termination. -/
def getNodes (r : HashRing) (key : String) (replicas : Int) :
    Option (List Node) :=
  if r.ring.length = 0 ∨ replicas ≤ 0 then some [] else
  let maxR : Int := min replicas (r.nodes.length : Int)
  let point := r.hashOf key
  let i := r.ring.findIdx (fun d => decide (point ≤ d))
  let i := if i = r.ring.length then 0 else i
  walk r.nodeMap r.ring maxR r.ring.length i []

/-- Number of virtual points on the ring owned by `n`. -/
def countPointsOf (r : HashRing) (n : Node) : Nat :=
  (r.ring.filter (fun d => decide (lookupD r.nodeMap d = n))).length

/-- Number of physically distinct nodes currently owning points on the
ring (the `distinctNodeCount` of the replica-selection claims). -/
def distinctNodeCount (r : HashRing) : Nat :=
  ((r.ring.map fun d => lookupD r.nodeMap d).toFinset).card

/-- Minimum of a list of digests (0 for the empty list, never used there). -/
def minD : List Nat → Nat
  | [] => 0
  | [d] => d
  | d :: rest => min d (minD rest)

/-- Modelled from the spec (section 4.4): the primary lookup returns the
node owning the first virtual point whose digest is at least `hash(key)`,
or, if none exists, the node owning the smallest digest on the ring
(wraparound); the sentinel empty node on an empty ring.  This definition
follows the spec's words and is compared with `getNode`, the definition
translated from the source. -/
def getNodeSpec (r : HashRing) (key : String) : Node :=
  if r.ring = [] then "" else
  match r.ring.filter (fun d => decide (r.hashOf key ≤ d)) with
  | d :: _ => lookupD r.nodeMap d
  | [] => lookupD r.nodeMap (minD r.ring)

/-- The set of owners met by the walk in the next `fuel` iterations when it
starts at ring index `i`. -/
def ownersFrom (nm : List (Nat × Node)) (ringL : List Nat) :
    Nat → Nat → Finset Node
  | _, 0 => ∅
  | i, fuel + 1 =>
      insert (lookupD nm (ringL.getD i 0))
        (ownersFrom nm ringL ((i + 1) % ringL.length) fuel)

/-- Structural well-formedness of a ring state: the ordered digest sequence
is strictly ascending, its members are exactly the keys of the digest-to-node
mapping, both maps are duplicate-free, and every owner recorded on the ring
is a present member of the weight mapping. -/
structure WF (r : HashRing) : Prop where
  sorted : r.ring.Pairwise (· < ·)
  mem_iff : ∀ d, d ∈ r.ring ↔ (alookup r.nodeMap d).isSome
  mapKeysNodup : (keysOf r.nodeMap).Nodup
  nodesKeysNodup : (keysOf r.nodes).Nodup
  ownersMem : ∀ d m, alookup r.nodeMap d = some m → (alookup r.nodes m).isSome

/-- Every member of the weight mapping owns at least one virtual point. -/
def memOwns (r : HashRing) : Prop :=
  ∀ p ∈ keysOf r.nodes, ∃ d, alookup r.nodeMap d = some p

/-- Ring states reachable from `new hasher virts` through the public
mutations, where every weight passed to `addNodeWeighted` satisfies `P`
(`P := fun w => True` gives arbitrary integer weights).  A mutation step is
recorded only when the Go call terminates, i.e. when some fuel suffices. -/
inductive Reachable (hasher : String → Nat) (virts : Int) (P : Int → Prop) :
    HashRing → Prop where
  | base : Reachable hasher virts P (new hasher virts)
  | add {r : HashRing} {n : Node} {w : Int} {fuel : Nat} {r' : HashRing} :
      Reachable hasher virts P r → P w →
      addNodeWeighted fuel r n w = some r' → Reachable hasher virts P r'
  | remove {r : HashRing} (n : Node) :
      Reachable hasher virts P r → Reachable hasher virts P (removeNode r n)

end HashRing

open HashRing

/-- Test hash function realising the fixed digest assignment of spec
section 8. -/
def testHasher : String → Nat
  | "A-0" => 10
  | "B-0" => 30
  | "C-0" => 50
  | "k1" => 5
  | "k2" => 25
  | "k3" => 45
  | "k4" => 55
  | _ => 0

/-- The section-8 ring after adding A (one virtual point per node). -/
def testRingA : HashRing :=
  { hasher := testHasher, virts := 1, nodes := [("A", 1)],
    ring := [10], nodeMap := [(10, "A")] }

/-- The section-8 ring after adding A and B. -/
def testRingAB : HashRing :=
  { hasher := testHasher, virts := 1, nodes := [("A", 1), ("B", 1)],
    ring := [10, 30], nodeMap := [(10, "A"), (30, "B")] }

/-- The section-8 ring: three single-point nodes A at 10, B at 30, C at 50. -/
def testRing : HashRing :=
  { hasher := testHasher, virts := 1,
    nodes := [("A", 1), ("B", 1), ("C", 1)],
    ring := [10, 30, 50],
    nodeMap := [(10, "A"), (30, "B"), (50, "C")] }

/-- Hash function with a cross-node digest collision:
`hash("B-0") = hash("A-0") = 10`. -/
def collHasher : String → Nat
  | "A-0" => 10
  | "A-1" => 11
  | "B-0" => 10
  | "B-1" => 20
  | "B-2" => 21
  | _ => 0

/-- Ring with two virtual points per weight unit after adding A. -/
def collRingA : HashRing :=
  { hasher := collHasher, virts := 2, nodes := [("A", 1)],
    ring := [10, 11], nodeMap := [(10, "A"), (11, "A")] }

/-- The collision ring after also adding B with weight 1: candidate `B-0`
collides with A's point at 10, the retry consumes outer index 1, and B ends
up owning a single point although `virts * weight = 2`. -/
def collRingAB : HashRing :=
  { hasher := collHasher, virts := 2,
    nodes := [("A", 1), ("B", 1)],
    ring := [10, 11, 20],
    nodeMap := [(10, "A"), (11, "A"), (20, "B")] }

/-- Hash function for the zero-weight-member scenario. -/
def zwHasher : String → Nat
  | "a-0" => 5
  | _ => 0

/-- Ring with the single-point node a. -/
def zwRingA : HashRing :=
  { hasher := zwHasher, virts := 1, nodes := [("a", 1)],
    ring := [5], nodeMap := [(5, "a")] }

/-- Ring after additionally adding node b with weight 0: b is a member of
the weight mapping but owns no virtual point. -/
def zwRing : HashRing :=
  { hasher := zwHasher, virts := 1, nodes := [("a", 1), ("b", 0)],
    ring := [5], nodeMap := [(5, "a")] }

section AssocLemmas

variable {α β : Type} [DecidableEq α]

theorem alookup_ainsert (l : List (α × β)) (a : α) (b : β) (x : α) :
    alookup (ainsert l a b) x = if a = x then some b else alookup l x := by
  induction l with
  | nil => simp [ainsert, alookup]
  | cons kv rest ih =>
      obtain ⟨k, v⟩ := kv
      by_cases hka : k = a
      · subst hka
        simp only [ainsert, if_pos rfl, alookup]
        by_cases hkx : k = x <;> simp [hkx]
      · by_cases hkx : k = x
        · subst hkx
          have hax : ¬ a = k := fun h => hka h.symm
          simp [ainsert, hka, alookup, hax]
        · simp [ainsert, hka, alookup, hkx, ih]

theorem alookup_eq_none (l : List (α × β)) (a : α) :
    alookup l a = none ↔ a ∉ keysOf l := by
  induction l with
  | nil => simp [alookup, keysOf]
  | cons kv rest ih =>
      obtain ⟨k, v⟩ := kv
      by_cases hka : k = a
      · subst hka
        simp [alookup, keysOf]
      · have hak : ¬ a = k := fun h => hka h.symm
        simp [alookup, hka, keysOf, hak, ih]

theorem alookup_isSome_iff (l : List (α × β)) (a : α) :
    (alookup l a).isSome ↔ a ∈ keysOf l := by
  rw [← not_iff_not]
  simp [Option.not_isSome_iff_eq_none, alookup_eq_none]

theorem mem_keysOf_ainsert (l : List (α × β)) (a : α) (b : β) (x : α) :
    x ∈ keysOf (ainsert l a b) ↔ x ∈ keysOf l ∨ x = a := by
  induction l with
  | nil => simp [ainsert, keysOf]
  | cons kv rest ih =>
      obtain ⟨k, v⟩ := kv
      by_cases hka : k = a
      · subst hka
        have hstep : ainsert ((k, v) :: rest) k b = (k, b) :: rest := by
          simp [ainsert]
        rw [hstep]
        simp only [keysOf, List.map_cons, List.mem_cons]
        tauto
      · simp only [ainsert, if_neg hka, keysOf, List.map_cons,
          List.mem_cons] at ih ⊢
        tauto

theorem keysOf_ainsert_nodup (l : List (α × β)) (a : α) (b : β)
    (h : (keysOf l).Nodup) : (keysOf (ainsert l a b)).Nodup := by
  induction l with
  | nil => simp [ainsert, keysOf]
  | cons kv rest ih =>
      obtain ⟨k, v⟩ := kv
      have hcons : keysOf ((k, v) :: rest) = k :: keysOf rest := rfl
      rw [hcons, List.nodup_cons] at h
      by_cases hka : k = a
      · subst hka
        have hstep : keysOf (ainsert ((k, v) :: rest) k b) = k :: keysOf rest := by
          simp [ainsert, keysOf]
        rw [hstep, List.nodup_cons]
        exact h
      · have hstep : keysOf (ainsert ((k, v) :: rest) a b)
            = k :: keysOf (ainsert rest a b) := by
          simp [ainsert, hka, keysOf]
        rw [hstep, List.nodup_cons]
        refine ⟨?_, ih h.2⟩
        rw [mem_keysOf_ainsert]
        rintro (hm | hm)
        · exact h.1 hm
        · exact hka hm

theorem alookup_aerase (l : List (α × β)) (a : α) (x : α) :
    alookup (aerase l a) x = if a = x then none else alookup l x := by
  induction l with
  | nil => simp [aerase, alookup]
  | cons kv rest ih =>
      obtain ⟨k, v⟩ := kv
      by_cases hka : k = a
      · subst hka
        rw [show aerase ((k, v) :: rest) k = aerase rest k from by simp [aerase]]
        rw [ih]
        by_cases hkx : k = x
        · simp [hkx]
        · simp [alookup, hkx]
      · by_cases hkx : k = x
        · subst hkx
          have hax : ¬ a = k := fun h => hka h.symm
          simp [aerase, hka, alookup, hax]
        · simp [aerase, hka, alookup, hkx, ih]

theorem aerase_sublist (l : List (α × β)) (a : α) : (aerase l a).Sublist l := by
  induction l with
  | nil => simp [aerase]
  | cons kv rest ih =>
      obtain ⟨k, v⟩ := kv
      by_cases hka : k = a
      · subst hka
        simpa [aerase] using ih.trans (List.sublist_cons_self (k, v) rest)
      · have hstep : aerase ((k, v) :: rest) a = (k, v) :: aerase rest a := by
          simp [aerase, hka]
        rw [hstep]
        exact ih.cons₂ (k, v)

theorem aerase_eq_self (l : List (α × β)) (a : α) (h : a ∉ keysOf l) :
    aerase l a = l := by
  induction l with
  | nil => simp [aerase]
  | cons kv rest ih =>
      obtain ⟨k, v⟩ := kv
      simp only [keysOf, List.map_cons, List.mem_cons] at h
      push_neg at h
      have hka : ¬ k = a := fun hk => h.1 (hk ▸ rfl)
      simp [aerase, hka, ih (by simpa [keysOf] using h.2)]

theorem alookup_mem_values (l : List (α × β)) (a : α) (b : β)
    (h : alookup l a = some b) : b ∈ valuesOf l := by
  induction l with
  | nil => simp [alookup] at h
  | cons kv rest ih =>
      obtain ⟨k, v⟩ := kv
      by_cases hka : k = a
      · subst hka
        have hstep : alookup ((k, v) :: rest) k = some v := by simp [alookup]
        rw [hstep] at h
        injection h with h
        subst h
        exact List.mem_cons_self _ _
      · simp only [alookup, if_neg hka] at h
        exact List.mem_cons_of_mem v (ih h)

end AssocLemmas

section BuiltMapLemmas

theorem alookup_map_pair_of_mem (L : List Nat) (f : Nat → Node) (d : Nat)
    (h : d ∈ L) : alookup (L.map fun p => (p, f p)) d = some (f d) := by
  induction L with
  | nil => simp at h
  | cons x rest ih =>
      by_cases hxd : x = d
      · subst hxd
        simp [alookup]
      · rcases List.mem_cons.mp h with h | h
        · exact absurd h.symm hxd
        · simp [alookup, hxd, ih h]

theorem alookup_map_pair_of_not_mem (L : List Nat) (f : Nat → Node) (d : Nat)
    (h : d ∉ L) : alookup (L.map fun p => (p, f p)) d = none := by
  induction L with
  | nil => simp [alookup]
  | cons x rest ih =>
      simp only [List.mem_cons] at h
      push_neg at h
      have hxd : ¬ x = d := fun hx => h.1 hx.symm
      simp [alookup, hxd, ih h.2]

end BuiltMapLemmas

section SearchLemmas

theorem findIdx_filter_ne_nil (l : List Nat) (p : Nat → Bool) (d0 : Nat)
    (h : l.filter p ≠ []) :
    l.findIdx p < l.length ∧ l.getD (l.findIdx p) d0 = (l.filter p).headD d0 := by
  induction l with
  | nil => simp at h
  | cons x rest ih =>
      by_cases hpx : p x = true
      · simp [List.findIdx_cons, hpx, List.filter_cons]
      · have hfil : (x :: rest).filter p = rest.filter p := by
          simp [List.filter_cons, hpx]
        rw [hfil] at h
        obtain ⟨hlt, hget⟩ := ih h
        constructor
        · simpa [List.findIdx_cons, hpx] using Nat.succ_lt_succ hlt
        · simpa [List.findIdx_cons, hpx, hfil, List.getD_cons_succ] using hget

theorem findIdx_filter_nil (l : List Nat) (p : Nat → Bool)
    (h : l.filter p = []) : l.findIdx p = l.length := by
  induction l with
  | nil => simp
  | cons x rest ih =>
      by_cases hpx : p x = true
      · simp [List.filter_cons, hpx] at h
      · have hfil : (x :: rest).filter p = rest.filter p := by
          simp [List.filter_cons, hpx]
        rw [hfil] at h
        simp [List.findIdx_cons, hpx, ih h]

theorem minD_le (l : List Nat) : ∀ x ∈ l, minD l ≤ x := by
  induction l with
  | nil => simp
  | cons d rest ih =>
      intro x hx
      rcases List.mem_cons.mp hx with hx | hx
      · subst hx
        cases rest with
        | nil => simp [minD]
        | cons e rest' => simp [minD]
      · cases rest with
        | nil => simp at hx
        | cons e rest' =>
            calc minD (d :: e :: rest') ≤ minD (e :: rest') := by simp [minD]
              _ ≤ x := ih x hx

theorem minD_mem (l : List Nat) (h : l ≠ []) : minD l ∈ l := by
  induction l with
  | nil => simp at h
  | cons d rest ih =>
      cases rest with
      | nil => simp [minD]
      | cons e rest' =>
          rcases min_choice d (minD (e :: rest')) with hm | hm
          · simp [minD, hm]
          · have : minD (e :: rest') ∈ e :: rest' := ih (by simp)
            simp only [minD, hm]
            exact List.mem_cons_of_mem d this

theorem sorted_headD_eq_minD (l : List Nat) (hs : l.Pairwise (· < ·))
    (h : l ≠ []) : l.headD 0 = minD l := by
  cases l with
  | nil => simp at h
  | cons d rest =>
      cases rest with
      | nil => simp [minD]
      | cons e rest' =>
          have hmem : minD (e :: rest') ∈ e :: rest' := minD_mem _ (by simp)
          have hd : d < minD (e :: rest') :=
            (List.pairwise_cons.mp hs).1 _ hmem
          simp [minD, min_eq_left (le_of_lt hd)]

end SearchLemmas

namespace HashRing

theorem getNode_eq_spec (r : HashRing) (key : String)
    (hs : r.ring.Pairwise (· < ·)) : getNode r key = getNodeSpec r key := by
  by_cases hne : r.ring = []
  · simp [getNode, getNodeSpec, hne]
  · have hlen : ¬ r.ring.length = 0 := by
      simpa [List.length_eq_zero] using hne
    rcases hfil : r.ring.filter (fun d => decide (r.hashOf key ≤ d))
      with _ | ⟨d, drest⟩
    · have hidx : r.ring.findIdx (fun d => decide (r.hashOf key ≤ d))
          = r.ring.length := findIdx_filter_nil _ _ hfil
      have hhead : r.ring.getD 0 0 = minD r.ring := by
        have h1 : r.ring.headD 0 = minD r.ring :=
          sorted_headD_eq_minD r.ring hs hne
        rw [← h1]
        cases r.ring with
        | nil => rfl
        | cons a t => rfl
      simp only [getNode, getNodeSpec, if_neg hlen, if_neg hne, hfil, hidx,
        eq_self_iff_true, if_true]
      rw [hhead]
    · have hfne : r.ring.filter (fun d => decide (r.hashOf key ≤ d)) ≠ [] := by
        rw [hfil]; simp
      obtain ⟨hlt, hget⟩ :=
        findIdx_filter_ne_nil r.ring (fun d => decide (r.hashOf key ≤ d)) 0 hfne
      have hwrap : ¬ r.ring.findIdx (fun d => decide (r.hashOf key ≤ d))
          = r.ring.length := Nat.ne_of_lt hlt
      simp only [getNode, getNodeSpec, if_neg hlen, if_neg hne, hfil,
        if_neg hwrap]
      rw [hget, hfil]
      simp

end HashRing

namespace HashRing

theorem removeNode_ring (r : HashRing) (n : Node) :
    (removeNode r n).ring
      = r.ring.filter (fun p => decide (¬ lookupD r.nodeMap p = n)) := rfl

theorem removeNode_hashOf (r : HashRing) (n : Node) (key : String) :
    (removeNode r n).hashOf key = r.hashOf key := rfl

theorem lookupD_removeNode (r : HashRing) (n : Node) (d : Nat)
    (hd : d ∈ (removeNode r n).ring) :
    alookup (removeNode r n).nodeMap d = some (lookupD r.nodeMap d) := by
  have hmap : (removeNode r n).nodeMap
      = (removeNode r n).ring.map (fun p => (p, lookupD r.nodeMap p)) := rfl
  rw [hmap]
  exact alookup_map_pair_of_mem _ _ _ hd

theorem getNodeSpec_filter_nil (r : HashRing) (key : String)
    (hne : r.ring ≠ [])
    (hfil : r.ring.filter (fun d => decide (r.hashOf key ≤ d)) = []) :
    getNodeSpec r key = lookupD r.nodeMap (minD r.ring) := by
  simp only [getNodeSpec, if_neg hne, hfil]

theorem getNodeSpec_filter_cons (r : HashRing) (key : String)
    (hne : r.ring ≠ []) (d : Nat) (t : List Nat)
    (hfil : r.ring.filter (fun e => decide (r.hashOf key ≤ e)) = d :: t) :
    getNodeSpec r key = lookupD r.nodeMap d := by
  simp only [getNodeSpec, if_neg hne, hfil]

theorem getNode_removeNode (r : HashRing) (X : Node) (k : String)
    (hs : r.ring.Pairwise (· < ·)) (hx : getNode r k ≠ X) :
    getNode (removeNode r X) k = getNode r k := by
  by_cases hne : r.ring = []
  · have h2 : (removeNode r X).ring = [] := by simp [removeNode_ring, hne]
    have h1 : getNode r k = "" := by simp [getNode, hne]
    have h3 : getNode (removeNode r X) k = "" := by simp [getNode, h2]
    rw [h1, h3]
  · have hs' : (removeNode r X).ring.Pairwise (· < ·) := by
      rw [removeNode_ring]
      exact hs.sublist (List.filter_sublist _)
    rw [getNode_eq_spec r k hs] at hx ⊢
    rw [getNode_eq_spec _ k hs']
    rcases hfil : r.ring.filter (fun e => decide (r.hashOf k ≤ e)) with _ | ⟨d, t⟩
    · have hxo : lookupD r.nodeMap (minD r.ring) ≠ X := by
        rwa [getNodeSpec_filter_nil r k hne hfil] at hx
      have hmem' : minD r.ring ∈ (removeNode r X).ring := by
        rw [removeNode_ring, List.mem_filter]
        exact ⟨minD_mem _ hne, by simpa using hxo⟩
      have hne' : (removeNode r X).ring ≠ [] := fun h => by simp [h] at hmem'
      have hfil' : (removeNode r X).ring.filter
          (fun e => decide ((removeNode r X).hashOf k ≤ e)) = [] := by
        rw [List.filter_eq_nil]
        intro a ha
        have haR : a ∈ r.ring := by
          rw [removeNode_ring] at ha
          exact (List.mem_filter.mp ha).1
        have := (List.filter_eq_nil.mp hfil) a haR
        simpa [removeNode_hashOf] using this
      rw [getNodeSpec_filter_nil _ k hne' hfil']
      rw [getNodeSpec_filter_nil r k hne hfil]
      have hminmem : minD (removeNode r X).ring ∈ r.ring := by
        have h0 := minD_mem _ hne'
        rw [removeNode_ring] at h0
        exact (List.mem_filter.mp h0).1
      have hmineq : minD (removeNode r X).ring = minD r.ring :=
        le_antisymm (minD_le _ _ hmem') (minD_le _ _ hminmem)
      rw [hmineq]
      have hl := lookupD_removeNode r X (minD r.ring) hmem'
      simp [lookupD, hl]
    · have hdmem : d ∈ r.ring ∧ decide (r.hashOf k ≤ d) = true := by
        have h0 : d ∈ r.ring.filter (fun e => decide (r.hashOf k ≤ e)) := by
          rw [hfil]; exact List.mem_cons_self _ _
        exact List.mem_filter.mp h0
      have hxo : lookupD r.nodeMap d ≠ X := by
        rwa [getNodeSpec_filter_cons r k hne d t hfil] at hx
      have hdm' : d ∈ (removeNode r X).ring := by
        rw [removeNode_ring, List.mem_filter]
        exact ⟨hdmem.1, by simpa using hxo⟩
      have hne' : (removeNode r X).ring ≠ [] := fun h => by simp [h] at hdm'
      have hcomm : (removeNode r X).ring.filter
          (fun e => decide ((removeNode r X).hashOf k ≤ e))
          = (r.ring.filter (fun e => decide (r.hashOf k ≤ e))).filter
              (fun p => decide (¬ lookupD r.nodeMap p = X)) := by
        rw [removeNode_ring]
        simp only [removeNode_hashOf]
        rw [List.filter_filter, List.filter_filter]
        congr 1
        funext a
        exact Bool.and_comm _ _
      have hfil' : (removeNode r X).ring.filter
          (fun e => decide ((removeNode r X).hashOf k ≤ e))
          = d :: t.filter (fun p => decide (¬ lookupD r.nodeMap p = X)) := by
        rw [hcomm, hfil, List.filter_cons]
        simp [hxo]
      rw [getNodeSpec_filter_cons _ k hne' d _ hfil']
      rw [getNodeSpec_filter_cons r k hne d t hfil]
      have hl := lookupD_removeNode r X d hdm'
      simp [lookupD, hl]

end HashRing

/-- C1: the claim asserts that immediately after `AddNodeWeighted(n, w)` on a
ring not containing `n`, node `n` owns exactly `virts * w` virtual points
even when digest collisions occur.  The code violates this: the collision
retry increments the shared loop index, so every collision consumes one
outer-loop iteration and reduces the number of points placed.  This theorem
evaluates the code at a failing input: with `virts = 2`, a ring containing
only A, and a hasher for which `hash("B-0") = hash("A-0")`, adding B with
weight 1 places a single point although `virts * 1 = 2`. -/
theorem addNodeWeighted_collision_shortfall :
    addNodeWeighted 16 (HashRing.new collHasher 2) "A" 1 = some collRingA
      ∧ alookup collRingA.nodes "B" = none
      ∧ countPointsOf collRingA "B" = 0
      ∧ addNodeWeighted 16 collRingA "B" 1 = some collRingAB
      ∧ countPointsOf collRingAB "B" = 1
      ∧ collRingAB.virts * 1 = 2 :=
  ⟨rfl, rfl, rfl, rfl, rfl, rfl⟩

/-- C4: on a sorted non-empty ring, `getNode` returns the node owning the
first virtual point whose digest is at least `hash(key)`, with wraparound to
the node owning the smallest digest (this is `getNodeSpec`, rendered from
the spec's words); and on the fixed test digest assignment of spec section 8
(A at 10, B at 30, C at 50) the keys hashing to 5, 25, 45 and 55 resolve to
A, B, C and A respectively. -/
theorem getNode_follows_spec (r : HashRing) (key : String)
    (hs : r.ring.Pairwise (· < ·)) (hne : r.ring ≠ []) :
    getNode r key = getNodeSpec r key
      ∧ getNode testRing "k1" = "A" ∧ getNode testRing "k2" = "B"
      ∧ getNode testRing "k3" = "C" ∧ getNode testRing "k4" = "A" :=
  ⟨getNode_eq_spec r key hs, rfl, rfl, rfl, rfl⟩

/-- Witness for C4 at the section-8 ring and the wraparound key. -/
theorem getNode_follows_spec_witness :
    getNode testRing "k4" = getNodeSpec testRing "k4"
      ∧ getNode testRing "k4" = "A" :=
  ⟨(getNode_follows_spec testRing "k4" (by decide) (by decide)).1,
   (getNode_follows_spec testRing "k4" (by decide) (by decide)).2.2.2.2⟩

/-- C5: minimal remapping.  For every ring state with a sorted digest
sequence, every node X and every key k whose primary owner before
`RemoveNode(X)` is not X, the primary owner after `RemoveNode(X)` is
unchanged: only keys previously owned by X are remapped. -/
theorem removeNode_minimal_remapping (r : HashRing) (X : Node) (k : String)
    (hs : r.ring.Pairwise (· < ·)) (hx : getNode r k ≠ X) :
    getNode (removeNode r X) k = getNode r k :=
  getNode_removeNode r X k hs hx

/-- Witness for C5: removing B from the section-8 ring leaves the owner of
k1 (owned by A) unchanged. -/
theorem removeNode_minimal_remapping_witness :
    getNode testRing "k1" ≠ "B"
      ∧ getNode (removeNode testRing "B") "k1" = getNode testRing "k1" :=
  ⟨by decide,
   removeNode_minimal_remapping testRing "B" "k1" (by decide) (by decide)⟩

/-- C7: on an empty ring `GetNode` returns the sentinel empty node for every
key and `GetNodes` returns an empty sequence for every replica count; and
for every non-positive replica count `GetNodes` returns an empty sequence on
every ring state. -/
theorem empty_and_nonpositive_lookups (hasher : String → Nat) (virts : Int)
    (key : String) (r : HashRing) (reps : Int) :
    getNode (HashRing.new hasher virts) key = ""
      ∧ getNodes (HashRing.new hasher virts) key reps = some []
      ∧ (reps ≤ 0 → getNodes r key reps = some []) := by
  refine ⟨by simp [getNode, HashRing.new], by simp [getNodes, HashRing.new], ?_⟩
  intro h
  simp [getNodes, h]

/-- Witness for C7 at a concrete hasher, key, ring and replica count. -/
theorem empty_and_nonpositive_lookups_witness :
    getNode (HashRing.new zwHasher 1) "k" = ""
      ∧ getNodes (HashRing.new zwHasher 1) "k" 3 = some []
      ∧ getNodes testRing "k1" (-1) = some [] :=
  ⟨(empty_and_nonpositive_lookups zwHasher 1 "k" testRing 3).1,
   (empty_and_nonpositive_lookups zwHasher 1 "k" testRing 3).2.1,
   (empty_and_nonpositive_lookups zwHasher 1 "k1" testRing (-1)).2.2 (by decide)⟩

/-- C8: removing a node that is absent (no weight entry, no virtual points)
from a state whose digest sequence matches its digest-to-node mapping is a
no-op: the ordered sequence and the weight mapping are unchanged and the
digest-to-node mapping is extensionally unchanged. -/
theorem removeNode_absent_noop (r : HashRing) (n : Node)
    (hmem : ∀ d, d ∈ r.ring ↔ (alookup r.nodeMap d).isSome)
    (habs : alookup r.nodes n = none)
    (hnopt : ∀ d m, alookup r.nodeMap d = some m → m ≠ n) :
    (removeNode r n).ring = r.ring ∧ (removeNode r n).nodes = r.nodes
      ∧ ∀ d, alookup (removeNode r n).nodeMap d = alookup r.nodeMap d := by
  have hring : (removeNode r n).ring = r.ring := by
    rw [removeNode_ring, List.filter_eq_self]
    intro a ha
    obtain ⟨m, hm⟩ := Option.isSome_iff_exists.mp ((hmem a).mp ha)
    have hla : lookupD r.nodeMap a = m := by simp [lookupD, hm]
    simp [hla, hnopt a m hm]
  refine ⟨hring, aerase_eq_self _ _ (by rwa [← alookup_eq_none]), ?_⟩
  intro d
  have hmap : (removeNode r n).nodeMap
      = (removeNode r n).ring.map (fun p => (p, lookupD r.nodeMap p)) := rfl
  rw [hmap, hring]
  by_cases hd : d ∈ r.ring
  · obtain ⟨m, hm⟩ := Option.isSome_iff_exists.mp ((hmem d).mp hd)
    rw [alookup_map_pair_of_mem _ _ _ hd]
    simp [lookupD, hm]
  · rw [alookup_map_pair_of_not_mem _ _ _ hd]
    have hn : ¬ (alookup r.nodeMap d).isSome :=
      fun hsome => hd ((hmem d).mpr hsome)
    rw [Option.not_isSome_iff_eq_none] at hn
    rw [hn]

/-- C10: adding a node with non-positive weight (or with a zero
virtual-nodes-per-weight-unit configuration) places no virtual points but
still records the node with its weight in the membership mapping, so the
node counts toward the replica cap of `GetNodes` while owning no ring
position. -/
theorem addNodeWeighted_nonpositive_weight (r : HashRing) (n : Node) (w : Int)
    (fuel : Nat) (hf : 1 ≤ fuel) (hs : r.ring.Pairwise (· ≤ ·))
    (hw : (w ≤ 0 ∧ 0 ≤ r.virts) ∨ (0 < w ∧ r.virts = 0)) :
    ∃ r', addNodeWeighted fuel r n w = some r'
      ∧ r'.ring = r.ring ∧ r'.nodeMap = r.nodeMap
      ∧ alookup r'.nodes n = some w ∧ n ∈ keysOf r'.nodes := by
  have htot : r.virts * w ≤ 0 := by
    rcases hw with ⟨h1, h2⟩ | ⟨h1, h2⟩
    · exact mul_nonpos_iff.mpr (Or.inl ⟨h2, h1⟩)
    · simp [h2]
  obtain ⟨f, rfl⟩ : ∃ f, fuel = f + 1 := ⟨fuel - 1, by omega⟩
  have hplace : placeLoop r.hasher n (r.virts * w) (f + 1) true 0
      r.ring r.nodeMap = some (r.ring, r.nodeMap) := by
    have hnot : ¬ ((0 : Nat) : Int) < r.virts * w := by
      have h0 : ((0 : Nat) : Int) = 0 := by norm_num
      rw [h0]
      omega
    simp only [placeLoop]
    rw [if_neg hnot]
  have hadd : addNodeWeighted (f + 1) r n w
      = some { r with
                nodes := ainsert r.nodes n w
                ring := List.insertionSort (fun a b => a ≤ b) r.ring
                nodeMap := r.nodeMap } := by
    simp [addNodeWeighted, hplace]
  refine ⟨_, hadd, ?_, rfl, ?_, ?_⟩
  · have hid : List.insertionSort (fun a b => a ≤ b) r.ring = r.ring :=
      List.Sorted.insertionSort_eq hs
    simpa using hid
  · simp [alookup_ainsert]
  · rw [mem_keysOf_ainsert]
    exact Or.inr rfl

/-- Witness for C10: adding node z with weight 0 to the section-8 ring. -/
theorem addNodeWeighted_nonpositive_weight_witness :
    ∃ r', addNodeWeighted 1 testRing "z" 0 = some r'
      ∧ r'.ring = testRing.ring ∧ r'.nodeMap = testRing.nodeMap
      ∧ alookup r'.nodes "z" = some 0 ∧ "z" ∈ keysOf r'.nodes :=
  addNodeWeighted_nonpositive_weight testRing "z" 0 1 (by decide) (by decide)
    (Or.inl ⟨le_refl 0, by decide⟩)

namespace HashRing

theorem placeLoop_mono (hasher : String → Nat) (n : Node) (total : Int) :
    ∀ (fuel : Nat) (b : Bool) (i : Nat) (ringL : List Nat)
      (nm : List (Nat × Node)) (ringL' : List Nat) (nm' : List (Nat × Node)),
      placeLoop hasher n total fuel b i ringL nm = some (ringL', nm') →
      ∀ d m, alookup nm d = some m → alookup nm' d = some m := by
  intro fuel
  induction fuel with
  | zero =>
      intro b i ringL nm ringL' nm' h
      simp [placeLoop] at h
  | succ f ih =>
      intro b i ringL nm ringL' nm' h d m hm
      cases b with
      | true =>
          simp only [placeLoop] at h
          by_cases hc : (i : Int) < total
          · rw [if_pos hc] at h
            exact ih false i ringL nm ringL' nm' h d m hm
          · rw [if_neg hc] at h
            rw [Option.some_inj] at h
            injection h with h1 h2
            subst h1
            subst h2
            exact hm
      | false =>
          simp only [placeLoop] at h
          by_cases hcol :
              (alookup nm (hasher (n ++ "-" ++ toString i) % 4294967296)).isSome
          · rw [if_pos hcol] at h
            exact ih false (i + 1) ringL nm ringL' nm' h d m hm
          · rw [if_neg hcol] at h
            have hpt : alookup nm (hasher (n ++ "-" ++ toString i) % 4294967296)
                = none := Option.not_isSome_iff_eq_none.mp hcol
            have hne : ¬ (hasher (n ++ "-" ++ toString i) % 4294967296) = d := by
              intro he
              rw [he, hm] at hpt
              simp at hpt
            have hm' : alookup
                (ainsert nm (hasher (n ++ "-" ++ toString i) % 4294967296) n) d
                = some m := by
              rw [alookup_ainsert, if_neg hne]
              exact hm
            exact ih true (i + 1) _ _ ringL' nm' h d m hm'

theorem placeLoop_new_owner (hasher : String → Nat) (n : Node) (total : Int) :
    ∀ (fuel : Nat) (b : Bool) (i : Nat) (ringL : List Nat)
      (nm : List (Nat × Node)) (ringL' : List Nat) (nm' : List (Nat × Node)),
      placeLoop hasher n total fuel b i ringL nm = some (ringL', nm') →
      ∀ d m, alookup nm' d = some m → alookup nm d = some m ∨ m = n := by
  intro fuel
  induction fuel with
  | zero =>
      intro b i ringL nm ringL' nm' h
      simp [placeLoop] at h
  | succ f ih =>
      intro b i ringL nm ringL' nm' h d m hm
      cases b with
      | true =>
          simp only [placeLoop] at h
          by_cases hc : (i : Int) < total
          · rw [if_pos hc] at h
            exact ih false i ringL nm ringL' nm' h d m hm
          · rw [if_neg hc] at h
            rw [Option.some_inj] at h
            injection h with h1 h2
            subst h1
            subst h2
            exact Or.inl hm
      | false =>
          simp only [placeLoop] at h
          by_cases hcol :
              (alookup nm (hasher (n ++ "-" ++ toString i) % 4294967296)).isSome
          · rw [if_pos hcol] at h
            exact ih false (i + 1) ringL nm ringL' nm' h d m hm
          · rw [if_neg hcol] at h
            rcases ih true (i + 1) _ _ ringL' nm' h d m hm with hold | hnew
            · rw [alookup_ainsert] at hold
              by_cases hpd : (hasher (n ++ "-" ++ toString i) % 4294967296) = d
              · rw [if_pos hpd] at hold
                injection hold with hold
                exact Or.inr hold.symm
              · rw [if_neg hpd] at hold
                exact Or.inl hold
            · exact Or.inr hnew

theorem placeLoop_corr (hasher : String → Nat) (n : Node) (total : Int) :
    ∀ (fuel : Nat) (b : Bool) (i : Nat) (ringL : List Nat)
      (nm : List (Nat × Node)) (ringL' : List Nat) (nm' : List (Nat × Node)),
      placeLoop hasher n total fuel b i ringL nm = some (ringL', nm') →
      (∀ d, d ∈ ringL ↔ (alookup nm d).isSome) →
      (keysOf nm).Nodup → ringL.Nodup →
      (∀ d, d ∈ ringL' ↔ (alookup nm' d).isSome)
        ∧ (keysOf nm').Nodup ∧ ringL'.Nodup := by
  intro fuel
  induction fuel with
  | zero =>
      intro b i ringL nm ringL' nm' h
      simp [placeLoop] at h
  | succ f ih =>
      intro b i ringL nm ringL' nm' h hmem hkn hrn
      cases b with
      | true =>
          simp only [placeLoop] at h
          by_cases hc : (i : Int) < total
          · rw [if_pos hc] at h
            exact ih false i ringL nm ringL' nm' h hmem hkn hrn
          · rw [if_neg hc] at h
            rw [Option.some_inj] at h
            injection h with h1 h2
            subst h1
            subst h2
            exact ⟨hmem, hkn, hrn⟩
      | false =>
          simp only [placeLoop] at h
          by_cases hcol :
              (alookup nm (hasher (n ++ "-" ++ toString i) % 4294967296)).isSome
          · rw [if_pos hcol] at h
            exact ih false (i + 1) ringL nm ringL' nm' h hmem hkn hrn
          · rw [if_neg hcol] at h
            have hpt : alookup nm (hasher (n ++ "-" ++ toString i) % 4294967296)
                = none := Option.not_isSome_iff_eq_none.mp hcol
            have hnm : (hasher (n ++ "-" ++ toString i) % 4294967296) ∉ ringL := by
              intro hmm
              have := (hmem _).mp hmm
              rw [hpt] at this
              simp at this
            refine ih true (i + 1) _ _ ringL' nm' h ?_ ?_ ?_
            · intro d
              rw [List.mem_append, alookup_ainsert]
              by_cases hpd : (hasher (n ++ "-" ++ toString i) % 4294967296) = d
              · simp [hpd.symm]
              · have hdp : ¬ d = (hasher (n ++ "-" ++ toString i) % 4294967296) :=
                  fun he => hpd he.symm
                simp only [if_neg hpd, List.mem_singleton]
                rw [hmem d]
                simp [hdp]
            · exact keysOf_ainsert_nodup _ _ _ hkn
            · simp [List.nodup_append, hrn, hnm]

end HashRing

namespace HashRing

theorem placeLoop_false_places (hasher : String → Nat) (n : Node) (total : Int) :
    ∀ (fuel : Nat) (i : Nat) (ringL : List Nat)
      (nm : List (Nat × Node)) (ringL' : List Nat) (nm' : List (Nat × Node)),
      placeLoop hasher n total fuel false i ringL nm = some (ringL', nm') →
      ∃ d, alookup nm' d = some n := by
  intro fuel
  induction fuel with
  | zero =>
      intro i ringL nm ringL' nm' h
      simp [placeLoop] at h
  | succ f ih =>
      intro i ringL nm ringL' nm' h
      simp only [placeLoop] at h
      by_cases hcol :
          (alookup nm (hasher (n ++ "-" ++ toString i) % 4294967296)).isSome
      · rw [if_pos hcol] at h
        exact ih (i + 1) ringL nm ringL' nm' h
      · rw [if_neg hcol] at h
        refine ⟨hasher (n ++ "-" ++ toString i) % 4294967296, ?_⟩
        have hbase : alookup
            (ainsert nm (hasher (n ++ "-" ++ toString i) % 4294967296) n)
            (hasher (n ++ "-" ++ toString i) % 4294967296) = some n := by
          rw [alookup_ainsert, if_pos rfl]
        exact placeLoop_mono hasher n total f true (i + 1) _ _ ringL' nm' h _ _ hbase

theorem placeLoop_true_places (hasher : String → Nat) (n : Node) (total : Int)
    (fuel : Nat) (i : Nat) (ringL : List Nat) (nm : List (Nat × Node))
    (ringL' : List Nat) (nm' : List (Nat × Node))
    (hc : (i : Int) < total)
    (h : placeLoop hasher n total fuel true i ringL nm = some (ringL', nm')) :
    ∃ d, alookup nm' d = some n := by
  cases fuel with
  | zero => simp [placeLoop] at h
  | succ f =>
      simp only [placeLoop] at h
      rw [if_pos hc] at h
      exact placeLoop_false_places hasher n total f i ringL nm ringL' nm' h

theorem keysOf_map_pair (L : List Nat) (f : Nat → Node) :
    keysOf (L.map fun p => (p, f p)) = L := by
  simp [keysOf, List.map_map]
  exact List.map_id L

theorem alookup_map_pair_inv (L : List Nat) (f : Nat → Node) (d : Nat)
    (m : Node) (h : alookup (L.map fun p => (p, f p)) d = some m) :
    d ∈ L ∧ m = f d := by
  by_cases hd : d ∈ L
  · rw [alookup_map_pair_of_mem _ _ _ hd] at h
    injection h with h
    exact ⟨hd, h.symm⟩
  · rw [alookup_map_pair_of_not_mem _ _ _ hd] at h
    simp at h

theorem wf_removeNode (r : HashRing) (n : Node) (hwf : WF r) :
    WF (removeNode r n) := by
  have hringNodup : r.ring.Nodup := hwf.sorted.imp ne_of_lt
  have hmap : (removeNode r n).nodeMap
      = (removeNode r n).ring.map (fun p => (p, lookupD r.nodeMap p)) := rfl
  refine ⟨?_, ?_, ?_, ?_, ?_⟩
  · rw [removeNode_ring]
    exact hwf.sorted.sublist (List.filter_sublist _)
  · intro d
    rw [hmap]
    by_cases hd : d ∈ (removeNode r n).ring
    · rw [alookup_map_pair_of_mem _ _ _ hd]
      simp [hd]
    · rw [alookup_map_pair_of_not_mem _ _ _ hd]
      simp [hd]
  · rw [hmap, keysOf_map_pair]
    rw [removeNode_ring]
    exact hringNodup.sublist (List.filter_sublist _)
  · have hsub : (keysOf (aerase r.nodes n)).Sublist (keysOf r.nodes) :=
      (aerase_sublist r.nodes n).map Prod.fst
    exact hwf.nodesKeysNodup.sublist hsub
  · intro d m hm
    rw [hmap] at hm
    obtain ⟨hd, hmeq⟩ := alookup_map_pair_inv _ _ _ _ hm
    rw [removeNode_ring, List.mem_filter] at hd
    have hdo : lookupD r.nodeMap d ≠ n := by simpa using hd.2
    obtain ⟨m0, hm0⟩ :=
      Option.isSome_iff_exists.mp ((hwf.mem_iff d).mp hd.1)
    have hm0d : lookupD r.nodeMap d = m0 := by simp [lookupD, hm0]
    have hmm : m = m0 := by rw [hmeq, hm0d]
    have hmn : m ≠ n := by rw [hmeq]; exact hdo
    have hsome := hwf.ownersMem d m0 hm0
    have hkeep : alookup (aerase r.nodes n) m = alookup r.nodes m := by
      rw [alookup_aerase, if_neg (fun he => hmn he.symm)]
    show (alookup (aerase r.nodes n) m).isSome
    rw [hkeep, hmm]
    exact hsome

theorem wf_addNodeWeighted (r : HashRing) (n : Node) (w : Int) (fuel : Nat)
    (r' : HashRing) (h : addNodeWeighted fuel r n w = some r') (hwf : WF r) :
    WF r' ∧ r'.virts = r.virts ∧ r'.hasher = r.hasher
      ∧ r'.nodes = ainsert r.nodes n w := by
  have hringNodup : r.ring.Nodup := hwf.sorted.imp ne_of_lt
  rcases hpl : placeLoop r.hasher n (r.virts * w) fuel true 0 r.ring r.nodeMap
    with _ | ⟨ringL', nm'⟩
  · rw [addNodeWeighted] at h
    simp only [hpl] at h
    simp at h
  · rw [addNodeWeighted] at h
    simp only [hpl] at h
    rw [Option.some_inj] at h
    subst h
    obtain ⟨hmem', hkn', hrn'⟩ :=
      placeLoop_corr r.hasher n (r.virts * w) fuel true 0 r.ring r.nodeMap
        ringL' nm' hpl hwf.mem_iff hwf.mapKeysNodup hringNodup
    have hperm := List.perm_insertionSort (fun a b => a ≤ b) ringL'
    refine ⟨⟨?_, ?_, hkn', ?_, ?_⟩, rfl, rfl, rfl⟩
    · have hsorted : List.Sorted (fun a b => a ≤ b)
          (List.insertionSort (fun a b => a ≤ b) ringL') :=
        List.sorted_insertionSort _ _
      have hnd : (List.insertionSort (fun a b => a ≤ b) ringL').Nodup :=
        hperm.nodup_iff.mpr hrn'
      exact hsorted.imp₂ (fun a b h1 h2 => lt_of_le_of_ne h1 h2) hnd
    · intro d
      rw [hperm.mem_iff]
      exact hmem' d
    · exact keysOf_ainsert_nodup _ _ _ hwf.nodesKeysNodup
    · intro d m hm
      rcases placeLoop_new_owner r.hasher n (r.virts * w) fuel true 0 r.ring
          r.nodeMap ringL' nm' hpl d m hm with hold | hnew
      · have hsome := hwf.ownersMem d m hold
        rw [alookup_ainsert]
        by_cases hnm : n = m
        · simp [hnm]
        · rw [if_neg hnm]
          exact hsome
      · subst hnew
        rw [alookup_ainsert, if_pos rfl]
        simp

theorem reachable_invariants (hasher : String → Nat) (virts : Int)
    (P : Int → Prop) (r : HashRing) (h : Reachable hasher virts P r) :
    WF r ∧ r.virts = virts ∧ r.hasher = hasher := by
  induction h with
  | base =>
      refine ⟨⟨?_, ?_, ?_, ?_, ?_⟩, rfl, rfl⟩ <;>
        simp [HashRing.new, alookup, keysOf]
  | add hr hP hadd ih =>
      obtain ⟨hwf, hv, hh⟩ := ih
      obtain ⟨hwf', hv', hh', -⟩ := wf_addNodeWeighted _ _ _ _ _ hadd hwf
      exact ⟨hwf', hv'.trans hv, hh'.trans hh⟩
  | remove n hr ih =>
      exact ⟨wf_removeNode _ _ ih.1, ih.2.1, ih.2.2⟩

theorem reachable_memOwns (hasher : String → Nat) (virts : Int)
    (P : Int → Prop) (hv : 1 ≤ virts) (hP : ∀ w, P w → 1 ≤ w)
    (r : HashRing) (h : Reachable hasher virts P r) : memOwns r := by
  induction h with
  | base =>
      intro p hp
      simp [HashRing.new, keysOf] at hp
  | add hr hPw hadd ih =>
      rename_i r0 n w fuel r1
      obtain ⟨hwf0, hv0, -⟩ := reachable_invariants hasher virts P r0 hr
      obtain ⟨-, -, -, hnodes1⟩ := wf_addNodeWeighted _ _ _ _ _ hadd hwf0
      rcases hpl : placeLoop r0.hasher n (r0.virts * w) fuel true 0
          r0.ring r0.nodeMap with _ | ⟨ringL', nm'⟩
      · rw [addNodeWeighted] at hadd
        simp only [hpl] at hadd
        simp at hadd
      · have hnm1 : r1.nodeMap = nm' := by
          rw [addNodeWeighted] at hadd
          simp only [hpl] at hadd
          rw [Option.some_inj] at hadd
          subst hadd
          rfl
        intro p hp
        rw [hnodes1, mem_keysOf_ainsert] at hp
        rcases hp with hold | hnew
        · obtain ⟨d, hd⟩ := ih p hold
          refine ⟨d, ?_⟩
          rw [hnm1]
          exact placeLoop_mono r0.hasher n (r0.virts * w) fuel true 0
            r0.ring r0.nodeMap ringL' nm' hpl d p hd
        · subst hnew
          have htot : ((0 : Nat) : Int) < r0.virts * w := by
            have h1 : 1 ≤ w := hP w hPw
            have h2 : 1 ≤ r0.virts := by rw [hv0]; exact hv
            have : (1 : Int) * 1 ≤ r0.virts * w := by
              apply mul_le_mul h2 h1 (by norm_num) (by omega)
            have h0 : ((0 : Nat) : Int) = 0 := by norm_num
            rw [h0]
            omega
          obtain ⟨d, hd⟩ := placeLoop_true_places r0.hasher p (r0.virts * w)
            fuel 0 r0.ring r0.nodeMap ringL' nm' htot hpl
          refine ⟨d, ?_⟩
          rw [hnm1]
          exact hd
  | remove X hr ih =>
      rename_i r0
      obtain ⟨hwf0, -, -⟩ := reachable_invariants hasher virts P r0 hr
      intro p hp
      have hpk : p ∈ keysOf r0.nodes ∧ p ≠ X := by
        have hsome : (alookup (aerase r0.nodes X) p).isSome :=
          (alookup_isSome_iff _ _).mpr hp
        rw [alookup_aerase] at hsome
        by_cases hxp : X = p
        · rw [if_pos hxp] at hsome
          simp at hsome
        · rw [if_neg hxp] at hsome
          exact ⟨(alookup_isSome_iff _ _).mp hsome, fun he => hxp he.symm⟩
      obtain ⟨d, hd⟩ := ih p hpk.1
      have hdr : d ∈ r0.ring := (hwf0.mem_iff d).mpr (by simp [hd])
      have hlo : lookupD r0.nodeMap d = p := by simp [lookupD, hd]
      have hdr' : d ∈ (removeNode r0 X).ring := by
        rw [removeNode_ring, List.mem_filter]
        refine ⟨hdr, ?_⟩
        simp [hlo, hpk.2]
      refine ⟨d, ?_⟩
      rw [lookupD_removeNode r0 X d hdr', hlo]

end HashRing

open HashRing

theorem testRing_reachable :
    Reachable testHasher 1 (fun _ => True) testRing := by
  have h1 : addNodeWeighted 8 (HashRing.new testHasher 1) "A" 1
      = some testRingA := rfl
  have h2 : addNodeWeighted 8 testRingA "B" 1 = some testRingAB := rfl
  have h3 : addNodeWeighted 8 testRingAB "C" 1 = some testRing := rfl
  exact Reachable.add
    (Reachable.add (Reachable.add Reachable.base trivial h1) trivial h2)
    trivial h3

theorem testRing_posReachable :
    Reachable testHasher 1 (fun w => (1 : Int) ≤ w) testRing := by
  have h1 : addNodeWeighted 8 (HashRing.new testHasher 1) "A" 1
      = some testRingA := rfl
  have h2 : addNodeWeighted 8 testRingA "B" 1 = some testRingAB := rfl
  have h3 : addNodeWeighted 8 testRingAB "C" 1 = some testRing := rfl
  exact Reachable.add
    (Reachable.add (Reachable.add Reachable.base (le_refl 1) h1) (le_refl 1) h2)
    (le_refl 1) h3

/-- C6: after every sequence of public mutations from the empty ring (with
any integer weights), the digest sequence is strictly ascending and its
members are exactly the keys of the digest-to-node mapping, which is itself
duplicate-free. -/
theorem ring_invariants_hold (hasher : String → Nat) (virts : Int)
    (P : Int → Prop) (r : HashRing) (h : Reachable hasher virts P r) :
    r.ring.Pairwise (· < ·)
      ∧ (∀ d, d ∈ r.ring ↔ (alookup r.nodeMap d).isSome)
      ∧ (keysOf r.nodeMap).Nodup := by
  obtain ⟨hwf, -, -⟩ := reachable_invariants hasher virts P r h
  exact ⟨hwf.sorted, hwf.mem_iff, hwf.mapKeysNodup⟩

/-- Witness for C6 at the section-8 ring, reached by three adds. -/
theorem ring_invariants_hold_witness :
    testRing.ring.Pairwise (· < ·)
      ∧ (∀ d, d ∈ testRing.ring ↔ (alookup testRing.nodeMap d).isSome)
      ∧ (keysOf testRing.nodeMap).Nodup :=
  ring_invariants_hold testHasher 1 (fun _ => True) testRing testRing_reachable

/-- Witness for C8: removing the absent node Z from the section-8 ring. -/
theorem removeNode_absent_noop_witness :
    (removeNode testRing "Z").ring = testRing.ring
      ∧ (removeNode testRing "Z").nodes = testRing.nodes
      ∧ ∀ d, alookup (removeNode testRing "Z").nodeMap d
          = alookup testRing.nodeMap d := by
  have hwf :=
    (reachable_invariants testHasher 1 (fun _ => True) testRing
      testRing_reachable).1
  refine removeNode_absent_noop testRing "Z" hwf.mem_iff rfl ?_
  intro d m hm
  have hv := alookup_mem_values _ _ _ hm
  have hvals : valuesOf testRing.nodeMap = ["A", "B", "C"] := rfl
  rw [hvals] at hv
  intro hEq
  subst hEq
  exact absurd hv (by decide)

namespace HashRing

theorem nodup_append_single (l : List Node) (a : Node) (h : l.Nodup)
    (ha : a ∉ l) : (l ++ [a]).Nodup := by
  refine h.append (List.nodup_singleton a) ?_
  intro x hx hx'
  rw [List.mem_singleton] at hx'
  subst hx'
  exact ha hx

theorem walk_isSome (nm : List (Nat × Node)) (ringL : List Nat) (maxR : Int) :
    ∀ (fuel i : Nat) (acc : List Node), acc.Nodup →
      maxR ≤ ((acc.toFinset ∪ ownersFrom nm ringL i fuel).card : Int) →
      (walk nm ringL maxR fuel i acc).isSome := by
  intro fuel
  induction fuel with
  | zero =>
      intro i acc hnd hcard
      have hempty : ownersFrom nm ringL i 0 = ∅ := rfl
      rw [hempty, Finset.union_empty, List.toFinset_card_of_nodup hnd] at hcard
      simp only [walk]
      rw [if_pos hcard]
      simp
  | succ f ih =>
      intro i acc hnd hcard
      simp only [walk]
      by_cases hstop : maxR ≤ (acc.length : Int)
      · rw [if_pos hstop]
        simp
      · rw [if_neg hstop]
        have hstep : ownersFrom nm ringL i (f + 1)
            = insert (lookupD nm (ringL.getD i 0))
                (ownersFrom nm ringL ((i + 1) % ringL.length) f) := rfl
        by_cases hmem : lookupD nm (ringL.getD i 0) ∈ acc
        · rw [if_pos hmem]
          apply ih _ acc hnd
          have heq : acc.toFinset
              ∪ ownersFrom nm ringL ((i + 1) % ringL.length) f
              = acc.toFinset ∪ ownersFrom nm ringL i (f + 1) := by
            rw [hstep, Finset.union_insert,
              Finset.insert_eq_self.mpr
                (Finset.mem_union_left _ (List.mem_toFinset.mpr hmem))]
          rw [heq]
          exact hcard
        · rw [if_neg hmem]
          apply ih
          · exact nodup_append_single _ _ hnd hmem
          · have h1 : (acc ++ [lookupD nm (ringL.getD i 0)]).toFinset
                = insert (lookupD nm (ringL.getD i 0)) acc.toFinset := by
              ext y
              simp [or_comm]
            have heq : (acc ++ [lookupD nm (ringL.getD i 0)]).toFinset
                ∪ ownersFrom nm ringL ((i + 1) % ringL.length) f
                = acc.toFinset ∪ ownersFrom nm ringL i (f + 1) := by
              rw [hstep, Finset.union_insert, h1, Finset.insert_union]
            rw [heq]
            exact hcard

theorem walk_some_spec (nm : List (Nat × Node)) (ringL : List Nat) (maxR : Int) :
    ∀ (fuel i : Nat) (acc out : List Node),
      walk nm ringL maxR fuel i acc = some out →
      acc.Nodup → (acc.length : Int) ≤ maxR →
      out.Nodup ∧ (out.length : Int) = maxR := by
  intro fuel
  induction fuel with
  | zero =>
      intro i acc out h hnd hle
      simp only [walk] at h
      by_cases hstop : maxR ≤ (acc.length : Int)
      · rw [if_pos hstop, Option.some_inj] at h
        subst h
        exact ⟨hnd, le_antisymm hle hstop⟩
      · rw [if_neg hstop] at h
        simp at h
  | succ f ih =>
      intro i acc out h hnd hle
      simp only [walk] at h
      by_cases hstop : maxR ≤ (acc.length : Int)
      · rw [if_pos hstop, Option.some_inj] at h
        subst h
        exact ⟨hnd, le_antisymm hle hstop⟩
      · rw [if_neg hstop] at h
        by_cases hmem : lookupD nm (ringL.getD i 0) ∈ acc
        · rw [if_pos hmem] at h
          exact ih _ acc out h hnd hle
        · rw [if_neg hmem] at h
          refine ih _ _ out h ?_ ?_
          · exact nodup_append_single _ _ hnd hmem
          · have hlen2 : (acc ++ [lookupD nm (ringL.getD i 0)]).length
                = acc.length + 1 := by simp
            rw [hlen2]
            push_cast
            omega

theorem mem_ownersFrom (nm : List (Nat × Node)) (ringL : List Nat) :
    ∀ (fuel i k : Nat), i < ringL.length → k < fuel →
      lookupD nm (ringL.getD ((i + k) % ringL.length) 0)
        ∈ ownersFrom nm ringL i fuel := by
  intro fuel
  induction fuel with
  | zero =>
      intro i k hi hk
      omega
  | succ f ih =>
      intro i k hi hk
      cases k with
      | zero =>
          have hmod : (i + 0) % ringL.length = i := by
            rw [Nat.add_zero]
            exact Nat.mod_eq_of_lt hi
          rw [hmod]
          exact Finset.mem_insert_self _ _
      | succ k' =>
          have hlen : 0 < ringL.length := lt_of_le_of_lt (Nat.zero_le i) hi
          have h1 : (((i + 1) % ringL.length) + k') % ringL.length
              = (i + (k' + 1)) % ringL.length := by
            rw [Nat.mod_add_mod]
            congr 1
            omega
          rw [← h1]
          exact Finset.mem_insert_of_mem
            (ih ((i + 1) % ringL.length) k' (Nat.mod_lt _ hlen) (by omega))

theorem ownersFrom_covers (nm : List (Nat × Node)) (ringL : List Nat)
    (i : Nat) (hi : i < ringL.length) (d : Nat) (hd : d ∈ ringL) :
    lookupD nm d ∈ ownersFrom nm ringL i ringL.length := by
  obtain ⟨⟨j, hj⟩, hget⟩ := List.get_of_mem hd
  have hlen : 0 < ringL.length := lt_of_le_of_lt (Nat.zero_le i) hi
  have hk : (j + ringL.length - i) % ringL.length < ringL.length :=
    Nat.mod_lt _ hlen
  have hidx : (i + (j + ringL.length - i) % ringL.length) % ringL.length = j := by
    rw [Nat.add_mod_mod]
    have hsum : i + (j + ringL.length - i) = j + ringL.length := by omega
    rw [hsum, Nat.add_mod_right]
    exact Nat.mod_eq_of_lt hj
  have hmem := mem_ownersFrom nm ringL ringL.length i
    ((j + ringL.length - i) % ringL.length) hi hk
  rw [hidx] at hmem
  have hgd : ringL.getD j 0 = d := by
    rw [List.getD_eq_getElem?_getD, List.getElem?_eq_getElem hj]
    exact hget
  rwa [hgd] at hmem

theorem owners_toFinset_eq (r : HashRing) (hwf : WF r) (hmo : memOwns r) :
    (r.ring.map fun d => lookupD r.nodeMap d).toFinset
      = (keysOf r.nodes).toFinset := by
  ext m
  simp only [List.mem_toFinset, List.mem_map]
  constructor
  · rintro ⟨d, hd, rfl⟩
    obtain ⟨m0, hm0⟩ := Option.isSome_iff_exists.mp ((hwf.mem_iff d).mp hd)
    have hld : lookupD r.nodeMap d = m0 := by simp [lookupD, hm0]
    rw [hld]
    exact (alookup_isSome_iff _ _).mp (hwf.ownersMem d m0 hm0)
  · intro hm
    obtain ⟨d, hd⟩ := hmo m hm
    exact ⟨d, (hwf.mem_iff d).mpr (by simp [hd]), by simp [lookupD, hd]⟩

theorem distinctNodeCount_eq (r : HashRing) (hwf : WF r) (hmo : memOwns r) :
    distinctNodeCount r = r.nodes.length := by
  rw [distinctNodeCount, owners_toFinset_eq r hwf hmo,
    List.toFinset_card_of_nodup hwf.nodesKeysNodup]
  simp [keysOf]

end HashRing

namespace HashRing

theorem getNodes_spec_posReachable (hasher : String → Nat) (virts : Int)
    (hv : 1 ≤ virts) (r : HashRing)
    (h : Reachable hasher virts (fun w => 1 ≤ w) r)
    (key : String) (replicas : Int) (hne : r.ring ≠ []) (hreps : 1 ≤ replicas) :
    ∃ ns, getNodes r key replicas = some ns ∧ ns.Nodup
      ∧ (ns.length : Int) = min replicas (r.nodes.length : Int) := by
  obtain ⟨hwf, -, -⟩ := reachable_invariants _ _ _ r h
  have hmo := reachable_memOwns hasher virts _ hv (fun w hw => hw) r h
  have hlen : ¬ r.ring.length = 0 := by simpa [List.length_eq_zero] using hne
  have hlen0 : 0 < r.ring.length := Nat.pos_of_ne_zero hlen
  have hguard : ¬ (r.ring.length = 0 ∨ replicas ≤ 0) := by
    push_neg
    exact ⟨hlen, by omega⟩
  have hi1 : (if r.ring.findIdx (fun d => decide (r.hashOf key ≤ d))
      = r.ring.length then 0
      else r.ring.findIdx (fun d => decide (r.hashOf key ≤ d)))
      < r.ring.length := by
    by_cases he : r.ring.findIdx (fun d => decide (r.hashOf key ≤ d))
        = r.ring.length
    · rw [if_pos he]
      exact hlen0
    · rw [if_neg he]
      exact lt_of_le_of_ne (List.findIdx_le_length _) he
  have hsub : (r.ring.map fun d => lookupD r.nodeMap d).toFinset
      ⊆ ownersFrom r.nodeMap r.ring
          (if r.ring.findIdx (fun d => decide (r.hashOf key ≤ d))
            = r.ring.length then 0
            else r.ring.findIdx (fun d => decide (r.hashOf key ≤ d)))
          r.ring.length := by
    intro m hm
    rw [List.mem_toFinset, List.mem_map] at hm
    obtain ⟨d, hd, rfl⟩ := hm
    exact ownersFrom_covers r.nodeMap r.ring _ hi1 d hd
  have h1 : ((r.ring.map fun d => lookupD r.nodeMap d).toFinset).card
      = r.nodes.length := by
    have hc := distinctNodeCount_eq r hwf hmo
    rwa [distinctNodeCount] at hc
  have h2 := Finset.card_le_card hsub
  have hcard : min replicas (r.nodes.length : Int)
      ≤ ((((List.toFinset ([] : List Node))
          ∪ ownersFrom r.nodeMap r.ring
              (if r.ring.findIdx (fun d => decide (r.hashOf key ≤ d))
                = r.ring.length then 0
                else r.ring.findIdx (fun d => decide (r.hashOf key ≤ d)))
              r.ring.length).card : Int)) := by
    have h3 : (List.toFinset ([] : List Node))
        ∪ ownersFrom r.nodeMap r.ring
            (if r.ring.findIdx (fun d => decide (r.hashOf key ≤ d))
              = r.ring.length then 0
              else r.ring.findIdx (fun d => decide (r.hashOf key ≤ d)))
            r.ring.length
        = ownersFrom r.nodeMap r.ring
            (if r.ring.findIdx (fun d => decide (r.hashOf key ≤ d))
              = r.ring.length then 0
              else r.ring.findIdx (fun d => decide (r.hashOf key ≤ d)))
            r.ring.length := by
      simp
    rw [h3]
    calc min replicas (r.nodes.length : Int)
        ≤ (r.nodes.length : Int) := min_le_right _ _
      _ ≤ _ := by
          rw [← h1]
          exact_mod_cast h2
  have hsome := walk_isSome r.nodeMap r.ring
    (min replicas (r.nodes.length : Int)) r.ring.length
    (if r.ring.findIdx (fun d => decide (r.hashOf key ≤ d))
      = r.ring.length then 0
      else r.ring.findIdx (fun d => decide (r.hashOf key ≤ d)))
    [] List.nodup_nil hcard
  obtain ⟨ns, hns⟩ := Option.isSome_iff_exists.mp hsome
  have hmax0 : (0 : Int) ≤ min replicas (r.nodes.length : Int) := by
    refine le_min (by omega) ?_
    exact_mod_cast Nat.zero_le _
  obtain ⟨hnd, hlenr⟩ := walk_some_spec r.nodeMap r.ring
    (min replicas (r.nodes.length : Int)) r.ring.length
    (if r.ring.findIdx (fun d => decide (r.hashOf key ≤ d))
      = r.ring.length then 0
      else r.ring.findIdx (fun d => decide (r.hashOf key ≤ d)))
    [] ns hns List.nodup_nil (by simpa using hmax0)
  refine ⟨ns, ?_, hnd, hlenr⟩
  simp only [getNodes]
  rw [if_neg hguard]
  exact hns

/-- C2 (amended): for every ring state reachable from the empty ring through
the public operations with positive weights (and at least one virtual point
per weight unit), the clockwise walk of `GetNodes` terminates within
`ringSize` iterations for every key and replica count, so `GetNodes`
returns.  (`getNodes` gives the walk exactly `ring.length` iterations of
fuel, so `isSome` is the claimed bound.) -/
theorem getNodes_terminates_posReachable (hasher : String → Nat) (virts : Int)
    (hv : 1 ≤ virts) (r : HashRing)
    (h : Reachable hasher virts (fun w => 1 ≤ w) r)
    (key : String) (replicas : Int) :
    (getNodes r key replicas).isSome := by
  by_cases hne : r.ring = []
  · have hz : r.ring.length = 0 := by simp [hne]
    simp [getNodes, hz]
  · by_cases hreps : replicas ≤ 0
    · simp [getNodes, hreps]
    · obtain ⟨ns, hns, -, -⟩ := getNodes_spec_posReachable hasher virts hv r h
        key replicas hne (by omega)
      simp [hns]

/-- C2 counterexample: the claim as stated quantifies over any integer
weight.  The state reached by adding a with weight 1 and b with weight 0 is
reachable through the public operations, yet the walk of
`GetNodes(key, 2)` is still running after `ringSize` iterations (in Go it
never terminates: b is counted in `len(h.nodes)` but owns no point). -/
theorem getNodes_zero_weight_member_exceeds_bound :
    Reachable zwHasher 1 (fun _ => True) zwRing
      ∧ getNodes zwRing "k" 2 = none := by
  constructor
  · have h1 : addNodeWeighted 8 (HashRing.new zwHasher 1) "a" 1
        = some zwRingA := rfl
    have h2 : addNodeWeighted 8 zwRingA "b" 0 = some zwRing := rfl
    exact Reachable.add (Reachable.add Reachable.base trivial h1) trivial h2
  · rfl

/-- Witness for the amended C2 at the section-8 ring. -/
theorem getNodes_terminates_posReachable_witness :
    (getNodes testRing "k1" 2).isSome :=
  getNodes_terminates_posReachable testHasher 1 (by norm_num) testRing
    testRing_posReachable "k1" 2

/-- C3 (amended): on every non-empty ring reachable with positive weights,
`GetNodes(key, r)` with `r ≥ 1` returns a duplicate-free sequence of length
exactly `min(r, distinctNodeCount)`. -/
theorem getNodes_distinct_min_count (hasher : String → Nat) (virts : Int)
    (hv : 1 ≤ virts) (r : HashRing)
    (h : Reachable hasher virts (fun w => 1 ≤ w) r)
    (key : String) (replicas : Int) (hne : r.ring ≠ []) (hreps : 1 ≤ replicas) :
    ∃ ns, getNodes r key replicas = some ns ∧ ns.Nodup
      ∧ (ns.length : Int) = min replicas ((distinctNodeCount r : Int)) := by
  obtain ⟨hwf, -, -⟩ := reachable_invariants _ _ _ r h
  have hmo := reachable_memOwns hasher virts _ hv (fun w hw => hw) r h
  obtain ⟨ns, h1, h2, h3⟩ := getNodes_spec_posReachable hasher virts hv r h
    key replicas hne hreps
  refine ⟨ns, h1, h2, ?_⟩
  rw [distinctNodeCount_eq r hwf hmo]
  exact h3

/-- C3 counterexample: on the reachable non-empty ring with the zero-weight
member b, the claim predicts a result of length `min(3, 1) = 1`, but
`GetNodes` does not return at all (the walk is still running after
`ringSize` iterations; in Go it loops forever). -/
theorem getNodes_count_fails_with_zero_weight_member :
    zwRing.ring ≠ []
      ∧ min (3 : Int) ((distinctNodeCount zwRing : Int)) = 1
      ∧ getNodes zwRing "kk" 3 = none := by
  refine ⟨by decide, ?_, rfl⟩
  have hd : distinctNodeCount zwRing = 1 := rfl
  rw [hd]
  decide

/-- Witness for the amended C3 at the section-8 ring. -/
theorem getNodes_distinct_min_count_witness :
    ∃ ns, getNodes testRing "k2" 2 = some ns ∧ ns.Nodup
      ∧ (ns.length : Int) = min 2 ((distinctNodeCount testRing : Int)) :=
  getNodes_distinct_min_count testHasher 1 (by norm_num) testRing
    testRing_posReachable "k2" 2 (by decide) (by norm_num)

end HashRing
